import Mathlib

/-!
# Verification of the rcalc tokenizer/parser core

A shallow embedding of `src/parsemath/token.rs` and `src/parsemath/parser.rs`
(the precedence-climbing recursive-descent parser), together with the parts of
the repository the parser depends on that are not in scope (`ast.rs`,
`tokenizer.rs`), which are modelled from the specification.

Conventions of the embedding:
* The `f64` payload of `Token::Num` is modelled as an exact rational `ℚ`;
  the parser never computes with the payload, it only moves it around.
* Rust's `Result<T, ParseErr>` is `Except ParseErr T`.
* The tokenizer is consumed one token at a time through `Parser::get_next_token`;
  its remaining output is modelled as a `List Token` held in the parser state,
  `tokenizer.next()` pops the head and yields `None` exactly when the list is
  empty.
* The mutual recursion of `generate_ast` / `parse_number` /
  `convert_token_to_node` is made structurally recursive on a fuel parameter;
  `Parser.parse` supplies fuel `2 * rest.length + 2`, which is always enough
  because every recursive call either consumes a token first or is the final
  loop step (the correctness lemmas below carry this bound explicitly).
-/

namespace Rcalc

/-- `Token` (token.rs lines 4-15): the closed set of lexical units.  The source
spells subtraction `Substract`. -/
inductive Token where
  | Add
  | Substract
  | Multiply
  | Divide
  | Caret
  | LeftParen
  | RightParen
  | Num (v : ℚ)
  | EOF
deriving DecidableEq

/-- `OperPrec` (token.rs lines 19-26): precedence levels, lowest to highest,
ordered by declaration order exactly as Rust's derived `PartialOrd`. -/
inductive OperPrec where
  | DefaultZero
  | AddSub
  | MulDiv
  | Power
  | Negative
deriving DecidableEq

/-- The rank used by the derived `PartialOrd` on `OperPrec`: declaration order. -/
def OperPrec.toNat : OperPrec → Nat
  | .DefaultZero => 0
  | .AddSub => 1
  | .MulDiv => 2
  | .Power => 3
  | .Negative => 4

instance : LT OperPrec := ⟨fun a b => a.toNat < b.toNat⟩

instance : LE OperPrec := ⟨fun a b => a.toNat ≤ b.toNat⟩

instance (a b : OperPrec) : Decidable (a < b) :=
  inferInstanceAs (Decidable (a.toNat < b.toNat))

instance (a b : OperPrec) : Decidable (a ≤ b) :=
  inferInstanceAs (Decidable (a.toNat ≤ b.toNat))

/-- `Token::get_oper_prec` (token.rs lines 28-40). -/
def Token.get_oper_prec : Token → OperPrec
  | .Add | .Substract => .AddSub
  | .Multiply | .Divide => .MulDiv
  | .Caret => .Power
  | _ => .DefaultZero

/-- Modelled from the spec: the AST node type of `ast.rs`, which is not under
`src/`.  Spec §3 "AST Node" lists the variants; the constructor names are the
ones `parser.rs` itself uses (`Number`, `Negative`, `Add`, `Subtract`,
`Multiply`, `Divide`, `Caret`), with `Box`ed children as plain subtrees. -/
inductive Node where
  | Number (v : ℚ)
  | Negative (c : Node)
  | Add (l r : Node)
  | Subtract (l r : Node)
  | Multiply (l r : Node)
  | Divide (l r : Node)
  | Caret (l r : Node)
deriving DecidableEq

/-- `ParseErr` (parser.rs lines 149-153). -/
inductive ParseErr where
  | UnableToParse (msg : String)
  | InvalidOperator (msg : String)
deriving DecidableEq

/-- The Rust `{:?}` (derived `Debug`) rendering of a token, used in the error
messages of `convert_token_to_node` and `check_paren`.  The numeric payload is
rendered from the rational model rather than as an `f64` literal; no claim
inspects a message containing a payload. -/
def Token.fmtDebug : Token → String
  | .Add => "Add"
  | .Substract => "Substract"
  | .Multiply => "Multiply"
  | .Divide => "Divide"
  | .Caret => "Caret"
  | .LeftParen => "LeftParen"
  | .RightParen => "RightParen"
  | .Num v => "Num(" ++ toString v.num ++ "/" ++ toString v.den ++ ")"
  | .EOF => "EOF"

/-- The parser state (parser.rs lines 6-9): the primed `current_token` plus the
tokens the tokenizer has yet to yield. -/
structure PState where
  current_token : Token
  rest : List Token
deriving DecidableEq

/-- `Parser::get_next_token` (parser.rs lines 139-146): pull the next token from
the tokenizer into `current_token`; `None` from the tokenizer (empty `rest`)
is the `InvalidOperator "Invalid character"` error. -/
def get_next_token (st : PState) : Except ParseErr PState :=
  match st.rest with
  | [] => .error (.InvalidOperator "Invalid character")
  | t :: ts => .ok ⟨t, ts⟩

/-- `Parser::new` (parser.rs lines 13-24): prime the first token; fail with
`InvalidOperator "Invalid character"` when the tokenizer yields no token at
all. -/
def Parser.new (toks : List Token) : Except ParseErr PState :=
  match toks with
  | [] => .error (.InvalidOperator "Invalid character")
  | t :: ts => .ok ⟨t, ts⟩

/-- `Parser::check_paren` (parser.rs lines 126-136). -/
def check_paren (st : PState) (expected : Token) : Except ParseErr PState :=
  if expected = st.current_token then
    get_next_token st
  else
    .error (.InvalidOperator
      ("Expected " ++ expected.fmtDebug ++ ", got " ++ st.current_token.fmtDebug))

mutual

/-- `Parser::generate_ast` (parser.rs lines 39-54): parse a primary with
`parse_number`, then run the precedence-climbing while-loop (`ast_loop`). -/
def generate_ast (fuel : Nat) (oper_prec : OperPrec) (st : PState) :
    Except ParseErr (Node × PState) :=
  match fuel with
  | 0 => .error (.UnableToParse "out of fuel")
  | f + 1 =>
    match parse_number f st with
    | .error e => .error e
    | .ok (left_expr, st) => ast_loop f oper_prec left_expr st

/-- The `while oper_prec < self.current_token.get_oper_prec()` loop of
`generate_ast` (parser.rs lines 42-50), with `left_expr` as the accumulator;
the `if self.current_token == Token::EOF { break; }` of line 43-45 is the inner
conditional. -/
def ast_loop (fuel : Nat) (oper_prec : OperPrec) (left_expr : Node) (st : PState) :
    Except ParseErr (Node × PState) :=
  match fuel with
  | 0 => .error (.UnableToParse "out of fuel")
  | f + 1 =>
    if oper_prec < st.current_token.get_oper_prec then
      if st.current_token = .EOF then
        .ok (left_expr, st)
      else
        match convert_token_to_node f left_expr st with
        | .error e => .error e
        | .ok (right_expr, st) => ast_loop f oper_prec right_expr st
    else
      .ok (left_expr, st)

/-- `Parser::parse_number` (parser.rs lines 57-83): primary expressions —
unary minus, numbers, and parenthesized subexpressions with the implicit
multiplication rule for an immediately following `LeftParen`. -/
def parse_number (fuel : Nat) (st : PState) : Except ParseErr (Node × PState) :=
  match fuel with
  | 0 => .error (.UnableToParse "out of fuel")
  | f + 1 =>
    match st.current_token with
    | .Substract =>
      match get_next_token st with
      | .error e => .error e
      | .ok st =>
        match generate_ast f .Negative st with
        | .error e => .error e
        | .ok (expr, st) => .ok (.Negative expr, st)
    | .Num i =>
      match get_next_token st with
      | .error e => .error e
      | .ok st => .ok (.Number i, st)
    | .LeftParen =>
      match get_next_token st with
      | .error e => .error e
      | .ok st =>
        match generate_ast f .DefaultZero st with
        | .error e => .error e
        | .ok (expr, st) =>
          match check_paren st .RightParen with
          | .error e => .error e
          | .ok st =>
            if st.current_token = .LeftParen then
              match generate_ast f .MulDiv st with
              | .error e => .error e
              | .ok (right, st) => .ok (.Multiply expr right, st)
            else
              .ok (expr, st)
    | _ => .error (.UnableToParse "Unable to parse")

/-- `Parser::convert_token_to_node` (parser.rs lines 86-123): consume the
current operator token and parse the right operand at that operator's own
precedence level. -/
def convert_token_to_node (fuel : Nat) (left_expr : Node) (st : PState) :
    Except ParseErr (Node × PState) :=
  match fuel with
  | 0 => .error (.UnableToParse "out of fuel")
  | f + 1 =>
    match st.current_token with
    | .Add =>
      match get_next_token st with
      | .error e => .error e
      | .ok st =>
        match generate_ast f .AddSub st with
        | .error e => .error e
        | .ok (right_expr, st) => .ok (.Add left_expr right_expr, st)
    | .Substract =>
      match get_next_token st with
      | .error e => .error e
      | .ok st =>
        match generate_ast f .AddSub st with
        | .error e => .error e
        | .ok (right_expr, st) => .ok (.Subtract left_expr right_expr, st)
    | .Multiply =>
      match get_next_token st with
      | .error e => .error e
      | .ok st =>
        match generate_ast f .MulDiv st with
        | .error e => .error e
        | .ok (right_expr, st) => .ok (.Multiply left_expr right_expr, st)
    | .Divide =>
      match get_next_token st with
      | .error e => .error e
      | .ok st =>
        match generate_ast f .MulDiv st with
        | .error e => .error e
        | .ok (right_expr, st) => .ok (.Divide left_expr right_expr, st)
    | .Caret =>
      match get_next_token st with
      | .error e => .error e
      | .ok st =>
        match generate_ast f .Power st with
        | .error e => .error e
        | .ok (right_expr, st) => .ok (.Caret left_expr right_expr, st)
    | t => .error (.InvalidOperator ("Please enter valid operator " ++ t.fmtDebug))

end

/-- `Parser::parse` (parser.rs lines 27-33): run `generate_ast` at
`DefaultZero`, return the root node and drop the final state (which is what the
Rust code does: the final `current_token` sits unexamined in `self`).  The fuel
`2 * rest.length + 2` is always sufficient. -/
def Parser.parse (st : PState) : Except ParseErr Node :=
  match generate_ast (2 * st.rest.length + 2) .DefaultZero st with
  | .error e => .error e
  | .ok (ast, _) => .ok ast

/-- `Parser::new` followed by `Parser::parse` on a token stream: the whole
pipeline of parser.rs applied to the tokenizer's output. -/
def parseTokens (toks : List Token) : Except ParseErr Node :=
  match Parser.new toks with
  | .error e => .error e
  | .ok st => Parser.parse st

/-- Modelled from the spec: the evaluator collaborator (§6), which is not under
`src/`.  It tree-walks depth-first and applies the arithmetic operation of each
node, over exact rationals.  Division by zero is out of the core's scope (§6)
and is mapped to `none`; `Caret` is exponentiation, defined here for integer
exponents (exact for every input exercised below, where `f64` arithmetic is
also exact). -/
def evalNode : Node → Option ℚ
  | .Number v => some v
  | .Negative c =>
    match evalNode c with
    | some x => some (-x)
    | none => none
  | .Add l r =>
    match evalNode l, evalNode r with
    | some a, some b => some (a + b)
    | _, _ => none
  | .Subtract l r =>
    match evalNode l, evalNode r with
    | some a, some b => some (a - b)
    | _, _ => none
  | .Multiply l r =>
    match evalNode l, evalNode r with
    | some a, some b => some (a * b)
    | _, _ => none
  | .Divide l r =>
    match evalNode l, evalNode r with
    | some a, some b => if b = 0 then none else some (a / b)
    | _, _ => none
  | .Caret l r =>
    match evalNode l, evalNode r with
    | some a, some b => if b.den = 1 then some (a ^ b.num) else none
    | _, _ => none

/-- Modelled from the spec: the Tokenizer (`tokenizer.rs`, not under `src/`),
§4.1.  It scans left to right: digit runs become `Num` tokens, the seven
operator/paren characters become their tokens, and "on encountering a character
that cannot start any recognized token, the sequence terminates early (no token
produced for remaining input)"; an exhausted input likewise yields no further
token, so the empty input produces zero tokens (§4.2: construction "fails with
`InvalidOperator` if the input yields zero tokens (empty or fully-invalid
expression)").  Numeral syntax is simplified to digit runs; no claim settled
against this model depends on the numeral values or on behaviour after a first
recognized token. -/
lemma length_dropWhile_le (p : Char → Bool) :
    ∀ l : List Char, (l.dropWhile p).length ≤ l.length
  | [] => Nat.le_refl _
  | c :: cs => by
    simp only [List.dropWhile]
    cases hp : p c <;> simp [hp]
    exact Nat.le_trans (length_dropWhile_le p cs) (Nat.le_succ _)

def tokenizeChars : List Char → List Token
  | [] => []
  | c :: cs =>
    if c.isDigit then
      Token.Num ((((c :: cs).takeWhile Char.isDigit).foldl
          (fun a d => 10 * a + (d.toNat - 48)) 0 : Nat) : ℚ)
        :: tokenizeChars ((c :: cs).dropWhile Char.isDigit)
    else if c = '+' then .Add :: tokenizeChars cs
    else if c = '-' then .Substract :: tokenizeChars cs
    else if c = '*' then .Multiply :: tokenizeChars cs
    else if c = '/' then .Divide :: tokenizeChars cs
    else if c = '^' then .Caret :: tokenizeChars cs
    else if c = '(' then .LeftParen :: tokenizeChars cs
    else if c = ')' then .RightParen :: tokenizeChars cs
    else []
termination_by l => l.length
decreasing_by
all_goals simp only [List.length_cons]
all_goals first
  | exact Nat.lt_succ_self cs.length
  | (rename_i hd
     rw [List.dropWhile_cons_of_pos hd]
     exact Nat.lt_succ_of_le (length_dropWhile_le Char.isDigit cs))

/-- A character the spec-modelled tokenizer recognizes as able to start a
token. -/
def recognizedChar (c : Char) : Bool :=
  c.isDigit || c = '+' || c = '-' || c = '*' || c = '/' || c = '^' ||
    c = '(' || c = ')'

/-! ## The reference grammar for claim C2

Claim C2 quantifies over "every well-formed input using only numerals and the
operators + - * /" and asserts that parsing yields "the AST with standard
precedence … and left-associativity".  Following the spec's words, the standard
ASTs of that fragment are exactly the ones produced by the unambiguous grammar
`E → E+T | E-T | T`, `T → T*F | T/F | F`, `F → numeral`; each well-formed input
is the token string of exactly one such AST.  `isExprB` recognizes these ASTs
and `flatten` maps an AST back to its input token string, so the claim reads:
for every `n` with `isExprB n`, parsing `flatten n` returns exactly `n`. -/

/-- `F → numeral`: a numeral leaf. -/
def isAtomB : Node → Bool
  | .Number _ => true
  | _ => false

/-- `T → T*F | T/F | F`: the left-associative multiplicative layer. -/
def isTermB : Node → Bool
  | .Multiply l r => isTermB l && isAtomB r
  | .Divide l r => isTermB l && isAtomB r
  | n => isAtomB n

/-- `E → E+T | E-T | T`: the left-associative additive layer — the standard
precedence-respecting, left-associative ASTs over numerals and `+ - * /`. -/
def isExprB : Node → Bool
  | .Add l r => isExprB l && isTermB r
  | .Subtract l r => isExprB l && isTermB r
  | n => isTermB n

/-- The token string an AST denotes (its untokenization; the `+ - * /`
fragment needs no parentheses, since precedence and left-associativity are what
`isExprB` captures). -/
def flatten : Node → List Token
  | .Number v => [.Num v]
  | .Negative c => .Substract :: flatten c
  | .Add l r => flatten l ++ .Add :: flatten r
  | .Subtract l r => flatten l ++ .Substract :: flatten r
  | .Multiply l r => flatten l ++ .Multiply :: flatten r
  | .Divide l r => flatten l ++ .Divide :: flatten r
  | .Caret l r => flatten l ++ .Caret :: flatten r

/-- A multiplicative-layer operator: `true` is `*`, `false` is `/`. -/
def mdTok (b : Bool) : Token := if b then .Multiply else .Divide

/-- The node built by a multiplicative-layer operator. -/
def mdNode (b : Bool) (l r : Node) : Node :=
  if b then .Multiply l r else .Divide l r

/-- An additive-layer operator: `true` is `+`, `false` is `-`. -/
def asTok (b : Bool) : Token := if b then .Add else .Substract

/-- The node built by an additive-layer operator. -/
def asNode (b : Bool) (l r : Node) : Node :=
  if b then .Add l r else .Subtract l r

/-- A term as a head atom extended left-to-right by `(op, numeral)` pairs: the
shape in which the parser's while-loop builds it. -/
def termFold (acc : Node) (ps : List (Bool × ℚ)) : Node :=
  ps.foldl (fun l e => mdNode e.1 l (.Number e.2)) acc

/-- The token string of the `(op, numeral)` extension pairs of a term. -/
def psTokens (ps : List (Bool × ℚ)) : List Token :=
  ps.flatMap fun e => [mdTok e.1, .Num e.2]

/-- An expression as a head term extended left-to-right by `(op, term)` pairs. -/
def exprFold (acc : Node) (qs : List (Bool × Node)) : Node :=
  qs.foldl (fun l e => asNode e.1 l e.2) acc

/-- The token string of the `(op, term)` extension pairs of an expression. -/
def qsTokens (qs : List (Bool × Node)) : List Token :=
  qs.flatMap fun e => asTok e.1 :: flatten e.2

lemma isAtomB_decomp {n : Node} (h : isAtomB n = true) : ∃ v, n = .Number v := by
  cases n <;> first
    | exact ⟨_, rfl⟩
    | simp [isAtomB] at h

lemma isTermB_decomp : ∀ n : Node, isTermB n = true →
    ∃ v ps, n = termFold (.Number v) ps := by
  intro n
  induction n with
  | Number v => exact fun _ => ⟨v, [], rfl⟩
  | Negative c ih => intro h; simp [isTermB, isAtomB] at h
  | Add l r ihl ihr => intro h; simp [isTermB, isAtomB] at h
  | Subtract l r ihl ihr => intro h; simp [isTermB, isAtomB] at h
  | Caret l r ihl ihr => intro h; simp [isTermB, isAtomB] at h
  | Multiply l r ihl ihr =>
    intro h
    simp only [isTermB, Bool.and_eq_true] at h
    obtain ⟨v, ps, rfl⟩ := ihl h.1
    obtain ⟨w, rfl⟩ := isAtomB_decomp h.2
    exact ⟨v, ps ++ [(true, w)], by simp [termFold, List.foldl_append, mdNode]⟩
  | Divide l r ihl ihr =>
    intro h
    simp only [isTermB, Bool.and_eq_true] at h
    obtain ⟨v, ps, rfl⟩ := ihl h.1
    obtain ⟨w, rfl⟩ := isAtomB_decomp h.2
    exact ⟨v, ps ++ [(false, w)], by simp [termFold, List.foldl_append, mdNode]⟩

lemma isExprB_decomp : ∀ n : Node, isExprB n = true →
    ∃ v ps qs, (∀ e ∈ qs, isTermB e.2 = true) ∧
      n = exprFold (termFold (.Number v) ps) qs := by
  intro n
  induction n with
  | Number v => exact fun _ => ⟨v, [], [], by simp, rfl⟩
  | Negative c ih => intro h; simp [isExprB, isTermB, isAtomB] at h
  | Caret l r ihl ihr => intro h; simp [isExprB, isTermB, isAtomB] at h
  | Multiply l r ihl ihr =>
    intro h
    obtain ⟨v, ps, heq⟩ := isTermB_decomp _ (by simpa [isExprB] using h)
    exact ⟨v, ps, [], by simp, by simpa [exprFold] using heq⟩
  | Divide l r ihl ihr =>
    intro h
    obtain ⟨v, ps, heq⟩ := isTermB_decomp _ (by simpa [isExprB] using h)
    exact ⟨v, ps, [], by simp, by simpa [exprFold] using heq⟩
  | Add l r ihl ihr =>
    intro h
    simp only [isExprB, Bool.and_eq_true] at h
    obtain ⟨v, ps, qs, hqs, rfl⟩ := ihl h.1
    refine ⟨v, ps, qs ++ [(true, r)], ?_, ?_⟩
    · intro e he
      rcases List.mem_append.1 he with h1 | h2
      · exact hqs e h1
      · simp at h2
        rw [h2]
        exact h.2
    · simp [exprFold, List.foldl_append, asNode]
  | Subtract l r ihl ihr =>
    intro h
    simp only [isExprB, Bool.and_eq_true] at h
    obtain ⟨v, ps, qs, hqs, rfl⟩ := ihl h.1
    refine ⟨v, ps, qs ++ [(false, r)], ?_, ?_⟩
    · intro e he
      rcases List.mem_append.1 he with h1 | h2
      · exact hqs e h1
      · simp at h2
        rw [h2]
        exact h.2
    · simp [exprFold, List.foldl_append, asNode]

lemma flatten_termFold : ∀ (ps : List (Bool × ℚ)) (acc : Node),
    flatten (termFold acc ps) = flatten acc ++ psTokens ps := by
  intro ps
  induction ps with
  | nil => intro acc; simp [termFold, psTokens]
  | cons e ps ih =>
    intro acc
    obtain ⟨b, v⟩ := e
    have step : termFold acc ((b, v) :: ps) =
        termFold (mdNode b acc (.Number v)) ps := rfl
    rw [step, ih]
    cases b <;> simp [mdNode, mdTok, psTokens, flatten]

lemma flatten_exprFold : ∀ (qs : List (Bool × Node)) (acc : Node),
    flatten (exprFold acc qs) = flatten acc ++ qsTokens qs := by
  intro qs
  induction qs with
  | nil => intro acc; simp [exprFold, qsTokens]
  | cons e qs ih =>
    intro acc
    obtain ⟨b, t⟩ := e
    have step : exprFold acc ((b, t) :: qs) =
        exprFold (asNode b acc t) qs := rfl
    rw [step, ih]
    cases b <;> simp [asNode, asTok, qsTokens, flatten]

/-! ## Computation lemmas for the precedence-climbing loop

Each lemma carries the fuel bound `2 * consumed + 2 ≤ fuel`, which shrinks at
least as fast as the fuel does along every path, so `Parser.parse`'s canonical
fuel `2 * rest.length + 2` always satisfies it. -/

lemma not_lt_of_addsub {x : OperPrec} (h : ¬ OperPrec.AddSub < x) :
    ¬ OperPrec.MulDiv < x :=
  fun h2 => h (Nat.lt_trans (by decide) h2)

/-- One-step unfolding of `generate_ast` at positive fuel. -/
lemma generate_ast_succ (f : Nat) (p : OperPrec) (t : Token) (rest : List Token) :
    generate_ast (f + 1) p ⟨t, rest⟩ =
      match parse_number f ⟨t, rest⟩ with
      | .error e => .error e
      | .ok (left, st2) => ast_loop f p left st2 := by
  rw [generate_ast.eq_def]

/-- One-step unfolding of `ast_loop` at positive fuel. -/
lemma ast_loop_succ (f : Nat) (p : OperPrec) (l : Node) (t : Token)
    (rest : List Token) :
    ast_loop (f + 1) p l ⟨t, rest⟩ =
      if p < t.get_oper_prec then
        if t = .EOF then .ok (l, ⟨t, rest⟩)
        else
          match convert_token_to_node f l ⟨t, rest⟩ with
          | .error e => .error e
          | .ok (r, st2) => ast_loop f p r st2
      else .ok (l, ⟨t, rest⟩) := by
  rw [ast_loop.eq_def]

/-- `parse_number` on a numeral consumes it and yields the leaf. -/
lemma parse_number_num (f : Nat) (v : ℚ) (x : Token) (xs : List Token) :
    parse_number (f + 1) ⟨.Num v, x :: xs⟩ = .ok (.Number v, ⟨x, xs⟩) := by
  rw [parse_number.eq_def]; exact rfl

/-- `convert_token_to_node` on `Multiply`. -/
lemma convert_multiply (f : Nat) (l : Node) (x : Token) (xs : List Token) :
    convert_token_to_node (f + 1) l ⟨.Multiply, x :: xs⟩ =
      match generate_ast f .MulDiv ⟨x, xs⟩ with
      | .error e => .error e
      | .ok (right, st2) => .ok (.Multiply l right, st2) := by
  rw [convert_token_to_node.eq_def]; exact rfl

/-- `convert_token_to_node` on `Divide`. -/
lemma convert_divide (f : Nat) (l : Node) (x : Token) (xs : List Token) :
    convert_token_to_node (f + 1) l ⟨.Divide, x :: xs⟩ =
      match generate_ast f .MulDiv ⟨x, xs⟩ with
      | .error e => .error e
      | .ok (right, st2) => .ok (.Divide l right, st2) := by
  rw [convert_token_to_node.eq_def]; exact rfl

/-- `convert_token_to_node` on `Add`. -/
lemma convert_add (f : Nat) (l : Node) (x : Token) (xs : List Token) :
    convert_token_to_node (f + 1) l ⟨.Add, x :: xs⟩ =
      match generate_ast f .AddSub ⟨x, xs⟩ with
      | .error e => .error e
      | .ok (right, st2) => .ok (.Add l right, st2) := by
  rw [convert_token_to_node.eq_def]; exact rfl

/-- `convert_token_to_node` on `Substract`. -/
lemma convert_substract (f : Nat) (l : Node) (x : Token) (xs : List Token) :
    convert_token_to_node (f + 1) l ⟨.Substract, x :: xs⟩ =
      match generate_ast f .AddSub ⟨x, xs⟩ with
      | .error e => .error e
      | .ok (right, st2) => .ok (.Subtract l right, st2) := by
  rw [convert_token_to_node.eq_def]; exact rfl

/-- A lone numeral parses to its leaf at any minimum precedence that the next
token does not exceed. -/
lemma gen_atom (p : OperPrec) (v : ℚ) (c : Token) (tl : List Token) (fuel : Nat)
    (hf : 2 ≤ fuel) (hc : ¬ p < c.get_oper_prec) :
    generate_ast fuel p ⟨.Num v, c :: tl⟩ = .ok (.Number v, ⟨c, tl⟩) := by
  obtain ⟨f, rfl⟩ : ∃ f, fuel = f + 2 := ⟨fuel - 2, by omega⟩
  simp [generate_ast, parse_number, get_next_token, ast_loop, hc]

/-- The head of a term-extension stream is `*`, `/`, or the stopper, all of
precedence at most `MulDiv`. -/
lemma psTokens_head (ps : List (Bool × ℚ)) (c : Token) (tl : List Token)
    (hc : ¬ OperPrec.MulDiv < c.get_oper_prec) :
    ∃ d r, psTokens ps ++ c :: tl = d :: r ∧
      ¬ OperPrec.MulDiv < d.get_oper_prec := by
  cases ps with
  | nil => exact ⟨c, tl, rfl, hc⟩
  | cons e ps =>
    obtain ⟨b, v⟩ := e
    cases b
    · exact ⟨.Divide, .Num v :: (psTokens ps ++ c :: tl),
        by simp [psTokens, mdTok], by decide⟩
    · exact ⟨.Multiply, .Num v :: (psTokens ps ++ c :: tl),
        by simp [psTokens, mdTok], by decide⟩

/-- The while-loop at level `AddSub` folds a run of `(*|/ , numeral)` pairs
into the accumulator left-to-right and stops at the first token of precedence
at most `AddSub`. -/
lemma loop_ps : ∀ (ps : List (Bool × ℚ)) (acc : Node) (c : Token)
    (tl : List Token) (fuel : Nat) (st : PState),
    st.current_token :: st.rest = psTokens ps ++ c :: tl →
    ¬ OperPrec.AddSub < c.get_oper_prec →
    2 * (psTokens ps).length + 2 ≤ fuel →
    ast_loop fuel .AddSub acc st = .ok (termFold acc ps, ⟨c, tl⟩) := by
  intro ps
  induction ps with
  | nil =>
    intro acc c tl fuel st hst hc hf
    obtain ⟨cur, rest⟩ := st
    simp only [psTokens, List.flatMap_nil, List.nil_append, List.cons.injEq] at hst
    obtain ⟨rfl, rfl⟩ := hst
    obtain ⟨f, rfl⟩ : ∃ f, fuel = f + 1 := ⟨fuel - 1, by omega⟩
    simp [ast_loop, termFold, hc]
  | cons e ps ih =>
    intro acc c tl fuel st hst hc hf
    obtain ⟨b, v⟩ := e
    obtain ⟨cur, rest⟩ := st
    have hL : (psTokens ((b, v) :: ps)).length = (psTokens ps).length + 2 := by
      simp [psTokens]
    obtain ⟨f, rfl⟩ : ∃ f, fuel = f + 3 := ⟨fuel - 3, by omega⟩
    obtain ⟨d, r, hdr, hd⟩ := psTokens_head ps c tl (not_lt_of_addsub hc)
    rw [show psTokens ((b, v) :: ps) = mdTok b :: .Num v :: psTokens ps from
      by simp [psTokens]] at hst
    simp only [List.cons_append, List.cons.injEq] at hst
    obtain ⟨rfl, rfl⟩ := hst
    have hterm : termFold acc ((b, v) :: ps) =
        termFold (mdNode b acc (.Number v)) ps := rfl
    rw [hterm, hdr]
    cases b
    · rw [show mdTok false = Token.Divide from rfl,
        show mdNode false acc (.Number v) = Node.Divide acc (.Number v) from rfl,
        show f + 3 = f + 2 + 1 from rfl, ast_loop_succ,
        if_pos (by decide : OperPrec.AddSub < Token.Divide.get_oper_prec),
        if_neg (by decide : ¬ (Token.Divide = Token.EOF)),
        show f + 2 = f + 1 + 1 from rfl, convert_divide,
        gen_atom .MulDiv v d r (f + 1) (by omega) hd]
      exact ih (.Divide acc (.Number v)) c tl (f + 1 + 1) ⟨d, r⟩ hdr.symm hc
        (by omega)
    · rw [show mdTok true = Token.Multiply from rfl,
        show mdNode true acc (.Number v) = Node.Multiply acc (.Number v) from rfl,
        show f + 3 = f + 2 + 1 from rfl, ast_loop_succ,
        if_pos (by decide : OperPrec.AddSub < Token.Multiply.get_oper_prec),
        if_neg (by decide : ¬ (Token.Multiply = Token.EOF)),
        show f + 2 = f + 1 + 1 from rfl, convert_multiply,
        gen_atom .MulDiv v d r (f + 1) (by omega) hd]
      exact ih (.Multiply acc (.Number v)) c tl (f + 1 + 1) ⟨d, r⟩ hdr.symm hc
        (by omega)

lemma flatten_ne_nil : ∀ n : Node, flatten n ≠ [] := by
  intro n
  cases n <;> simp [flatten]

/-- A whole term parses at level `AddSub`: the primary numeral plus the
`AddSub`-level while-loop folding in the `*`/`/` pairs. -/
lemma gen_term (n : Node) (hn : isTermB n = true) (c : Token) (tl : List Token)
    (fuel : Nat) (st : PState)
    (hst : st.current_token :: st.rest = flatten n ++ c :: tl)
    (hc : ¬ OperPrec.AddSub < c.get_oper_prec)
    (hf : 2 * (flatten n).length + 2 ≤ fuel) :
    generate_ast fuel .AddSub st = .ok (n, ⟨c, tl⟩) := by
  obtain ⟨v, ps, rfl⟩ := isTermB_decomp n hn
  have hfl : flatten (termFold (.Number v) ps) = .Num v :: psTokens ps := by
    rw [flatten_termFold]
    rfl
  rw [hfl] at hst hf
  obtain ⟨cur, rest⟩ := st
  simp only [List.cons_append, List.cons.injEq] at hst
  obtain ⟨rfl, rfl⟩ := hst
  have hL : (Token.Num v :: psTokens ps).length = (psTokens ps).length + 1 := by
    simp
  obtain ⟨f, rfl⟩ : ∃ f, fuel = f + 2 := ⟨fuel - 2, by omega⟩
  obtain ⟨d, r, hdr, hd⟩ := psTokens_head ps c tl (not_lt_of_addsub hc)
  rw [hdr, show f + 2 = f + 1 + 1 from rfl, generate_ast_succ, parse_number_num]
  exact loop_ps ps (.Number v) c tl (f + 1) ⟨d, r⟩ hdr.symm hc (by omega)

/-- The head of an expression-extension stream is `+`, `-`, or the stopper, all
of precedence at most `AddSub`. -/
lemma qsTokens_head (qs : List (Bool × Node)) (c : Token) (tl : List Token)
    (hc : ¬ OperPrec.AddSub < c.get_oper_prec) :
    ∃ d r, qsTokens qs ++ c :: tl = d :: r ∧
      ¬ OperPrec.AddSub < d.get_oper_prec := by
  cases qs with
  | nil => exact ⟨c, tl, rfl, hc⟩
  | cons e qs =>
    obtain ⟨b, t⟩ := e
    cases b
    · exact ⟨.Substract, flatten t ++ (qsTokens qs ++ c :: tl),
        by simp [qsTokens, asTok], by decide⟩
    · exact ⟨.Add, flatten t ++ (qsTokens qs ++ c :: tl),
        by simp [qsTokens, asTok], by decide⟩

/-- The while-loop at level `DefaultZero`, once past the leading term, folds a
run of `(+|- , term)` pairs into the accumulator left-to-right and stops at the
stopper of precedence `DefaultZero` (for a full parse: `EOF`). -/
lemma loop_qs : ∀ (qs : List (Bool × Node)) (acc : Node) (c : Token)
    (tl : List Token) (fuel : Nat) (st : PState),
    (∀ e ∈ qs, isTermB e.2 = true) →
    st.current_token :: st.rest = qsTokens qs ++ c :: tl →
    c.get_oper_prec = .DefaultZero →
    2 * (qsTokens qs).length + 2 ≤ fuel →
    ast_loop fuel .DefaultZero acc st = .ok (exprFold acc qs, ⟨c, tl⟩) := by
  intro qs
  induction qs with
  | nil =>
    intro acc c tl fuel st hqs hst hc hf
    have hstop : ¬ OperPrec.DefaultZero < c.get_oper_prec := by rw [hc]; decide
    obtain ⟨cur, rest⟩ := st
    simp only [qsTokens, List.flatMap_nil, List.nil_append, List.cons.injEq] at hst
    obtain ⟨rfl, rfl⟩ := hst
    obtain ⟨f, rfl⟩ : ∃ f, fuel = f + 1 := ⟨fuel - 1, by omega⟩
    rw [ast_loop_succ, if_neg hstop]
    rfl
  | cons e qs ih =>
    intro acc c tl fuel st hqs hst hc hf
    obtain ⟨b, t⟩ := e
    obtain ⟨cur, rest⟩ := st
    have ht : isTermB t = true := hqs (b, t) (by simp)
    have hqs' : ∀ e ∈ qs, isTermB e.2 = true := fun e he => hqs e (by simp [he])
    have hLq : (qsTokens ((b, t) :: qs)).length =
        (flatten t).length + (qsTokens qs).length + 1 := by
      simp [qsTokens]
    have hft1 : 1 ≤ (flatten t).length := by
      cases hft0 : flatten t with
      | nil => exact absurd hft0 (flatten_ne_nil t)
      | cons a l2 => simp
    rw [show qsTokens ((b, t) :: qs) = asTok b :: (flatten t ++ qsTokens qs) from
      by simp [qsTokens]] at hst
    simp only [List.cons_append, List.append_assoc, List.cons.injEq] at hst
    obtain ⟨rfl, rfl⟩ := hst
    obtain ⟨d2, r2, hdr2, hd2⟩ := qsTokens_head qs c tl
      (show ¬ OperPrec.AddSub < c.get_oper_prec from by rw [hc]; decide)
    obtain ⟨ft0, fts, hft⟩ : ∃ a l2, flatten t = a :: l2 := by
      cases hft0 : flatten t with
      | nil => exact absurd hft0 (flatten_ne_nil t)
      | cons a l2 => exact ⟨a, l2, rfl⟩
    obtain ⟨f, rfl⟩ : ∃ f, fuel = f + 3 := ⟨fuel - 3, by omega⟩
    have hstu : ft0 :: (fts ++ (qsTokens qs ++ c :: tl)) =
        flatten t ++ d2 :: r2 := by
      rw [hdr2, hft]
      simp [List.cons_append]
    have hgf : 2 * (flatten t).length + 2 ≤ f + 1 := by
      have ha : (flatten t).length = fts.length + 1 := by rw [hft]; simp
      rw [hft] at hLq
      simp at hLq
      omega
    have hexpr : exprFold acc ((b, t) :: qs) = exprFold (asNode b acc t) qs := rfl
    rw [hexpr, hft]
    simp only [List.cons_append]
    cases b
    · rw [show asTok false = Token.Substract from rfl,
        show asNode false acc t = Node.Subtract acc t from rfl,
        show f + 3 = f + 2 + 1 from rfl, ast_loop_succ,
        if_pos (by decide : OperPrec.DefaultZero < Token.Substract.get_oper_prec),
        if_neg (by decide : ¬ (Token.Substract = Token.EOF)),
        show f + 2 = f + 1 + 1 from rfl, convert_substract,
        gen_term t ht d2 r2 (f + 1) ⟨ft0, fts ++ (qsTokens qs ++ c :: tl)⟩
          hstu hd2 hgf]
      exact ih (.Subtract acc t) c tl (f + 1 + 1) ⟨d2, r2⟩ hqs' hdr2.symm hc
        (by omega)
    · rw [show asTok true = Token.Add from rfl,
        show asNode true acc t = Node.Add acc t from rfl,
        show f + 3 = f + 2 + 1 from rfl, ast_loop_succ,
        if_pos (by decide : OperPrec.DefaultZero < Token.Add.get_oper_prec),
        if_neg (by decide : ¬ (Token.Add = Token.EOF)),
        show f + 2 = f + 1 + 1 from rfl, convert_add,
        gen_term t ht d2 r2 (f + 1) ⟨ft0, fts ++ (qsTokens qs ++ c :: tl)⟩
          hstu hd2 hgf]
      exact ih (.Add acc t) c tl (f + 1 + 1) ⟨d2, r2⟩ hqs' hdr2.symm hc
        (by omega)

/-- The head of the full extension stream of an expression, bounded by
`MulDiv` (the bound the atom parsed at level `MulDiv` needs to stop). -/
lemma mixed_head (ps : List (Bool × ℚ)) (qs : List (Bool × Node)) (c : Token)
    (tl : List Token) (hc : c.get_oper_prec = .DefaultZero) :
    ∃ d r, psTokens ps ++ qsTokens qs ++ c :: tl = d :: r ∧
      ¬ OperPrec.MulDiv < d.get_oper_prec := by
  cases ps with
  | nil =>
    obtain ⟨d, r, hdr, hd⟩ := qsTokens_head qs c tl
      (show ¬ OperPrec.AddSub < c.get_oper_prec from by rw [hc]; decide)
    exact ⟨d, r, by simpa [psTokens] using hdr, not_lt_of_addsub hd⟩
  | cons e ps =>
    obtain ⟨b, v⟩ := e
    cases b
    · exact ⟨.Divide, .Num v :: (psTokens ps ++ qsTokens qs ++ c :: tl),
        by simp [psTokens, mdTok], by decide⟩
    · exact ⟨.Multiply, .Num v :: (psTokens ps ++ qsTokens qs ++ c :: tl),
        by simp [psTokens, mdTok], by decide⟩

/-- The while-loop at level `DefaultZero` over the full extension stream:
first the `*`/`/` pairs completing the leading term, then the `+`/`-` pairs
with term operands. -/
lemma loop_mixed : ∀ (ps : List (Bool × ℚ)) (qs : List (Bool × Node))
    (acc : Node) (c : Token) (tl : List Token) (fuel : Nat) (st : PState),
    (∀ e ∈ qs, isTermB e.2 = true) →
    st.current_token :: st.rest = psTokens ps ++ qsTokens qs ++ c :: tl →
    c.get_oper_prec = .DefaultZero →
    2 * (psTokens ps ++ qsTokens qs).length + 2 ≤ fuel →
    ast_loop fuel .DefaultZero acc st =
      .ok (exprFold (termFold acc ps) qs, ⟨c, tl⟩) := by
  intro ps
  induction ps with
  | nil =>
    intro qs acc c tl fuel st hqs hst hc hf
    exact loop_qs qs acc c tl fuel st hqs (by simpa [psTokens] using hst) hc
      (by simp only [psTokens, List.flatMap_nil, List.nil_append] at hf ⊢; omega)
  | cons e ps ih =>
    intro qs acc c tl fuel st hqs hst hc hf
    obtain ⟨b, v⟩ := e
    obtain ⟨cur, rest⟩ := st
    have hL : (psTokens ((b, v) :: ps)).length = (psTokens ps).length + 2 := by
      simp [psTokens]
    have hfL : 2 * ((psTokens ps ++ qsTokens qs).length + 2) + 2 ≤ fuel := by
      simp only [List.length_append] at hf ⊢
      omega
    obtain ⟨f, rfl⟩ : ∃ f, fuel = f + 3 := ⟨fuel - 3, by omega⟩
    obtain ⟨d, r, hdr, hd⟩ := mixed_head ps qs c tl hc
    rw [show psTokens ((b, v) :: ps) = mdTok b :: .Num v :: psTokens ps from
      by simp [psTokens]] at hst
    simp only [List.cons_append, List.cons.injEq] at hst
    obtain ⟨rfl, rfl⟩ := hst
    have hterm : termFold acc ((b, v) :: ps) =
        termFold (mdNode b acc (.Number v)) ps := rfl
    rw [hterm, hdr]
    cases b
    · rw [show mdTok false = Token.Divide from rfl,
        show mdNode false acc (.Number v) = Node.Divide acc (.Number v) from rfl,
        show f + 3 = f + 2 + 1 from rfl, ast_loop_succ,
        if_pos (by decide : OperPrec.DefaultZero < Token.Divide.get_oper_prec),
        if_neg (by decide : ¬ (Token.Divide = Token.EOF)),
        show f + 2 = f + 1 + 1 from rfl, convert_divide,
        gen_atom .MulDiv v d r (f + 1) (by omega) hd]
      exact ih qs (.Divide acc (.Number v)) c tl (f + 1 + 1) ⟨d, r⟩ hqs hdr.symm
        hc (by simp only [List.length_append] at hfL ⊢; omega)
    · rw [show mdTok true = Token.Multiply from rfl,
        show mdNode true acc (.Number v) = Node.Multiply acc (.Number v) from rfl,
        show f + 3 = f + 2 + 1 from rfl, ast_loop_succ,
        if_pos (by decide : OperPrec.DefaultZero < Token.Multiply.get_oper_prec),
        if_neg (by decide : ¬ (Token.Multiply = Token.EOF)),
        show f + 2 = f + 1 + 1 from rfl, convert_multiply,
        gen_atom .MulDiv v d r (f + 1) (by omega) hd]
      exact ih qs (.Multiply acc (.Number v)) c tl (f + 1 + 1) ⟨d, r⟩ hqs hdr.symm
        hc (by simp only [List.length_append] at hfL ⊢; omega)

/-- A whole standard expression parses at level `DefaultZero`. -/
lemma gen_expr (v : ℚ) (ps : List (Bool × ℚ)) (qs : List (Bool × Node))
    (c : Token) (tl : List Token) (fuel : Nat) (st : PState)
    (hqs : ∀ e ∈ qs, isTermB e.2 = true)
    (hst : st.current_token :: st.rest =
      .Num v :: (psTokens ps ++ qsTokens qs ++ c :: tl))
    (hc : c.get_oper_prec = .DefaultZero)
    (hf : 2 * (psTokens ps ++ qsTokens qs).length + 4 ≤ fuel) :
    generate_ast fuel .DefaultZero st =
      .ok (exprFold (termFold (.Number v) ps) qs, ⟨c, tl⟩) := by
  obtain ⟨cur, rest⟩ := st
  simp only [List.cons.injEq] at hst
  obtain ⟨rfl, rfl⟩ := hst
  obtain ⟨f, rfl⟩ : ∃ f, fuel = f + 2 := ⟨fuel - 2, by omega⟩
  obtain ⟨d, r, hdr, _hd⟩ := mixed_head ps qs c tl hc
  rw [hdr, show f + 2 = f + 1 + 1 from rfl, generate_ast_succ, parse_number_num]
  exact loop_mixed ps qs (.Number v) c tl (f + 1) ⟨d, r⟩ hqs hdr.symm hc
    (by omega)

/-- Claim C2: for every well-formed input over numerals and `+ - * /` — the
token string `flatten n` of a standard-precedence, left-associative AST `n`
(`isExprB`), followed by the end-of-input sentinel — the parser returns exactly
`n`; in particular `"a+b*c"` parses as `Add(a, Multiply(b, c))` and `"a-b-c"`
parses as `Subtract(Subtract(a, b), c)`. -/
theorem C2_standard_precedence :
    (∀ n : Node, isExprB n = true → parseTokens (flatten n ++ [.EOF]) = .ok n) ∧
    (∀ a b c : ℚ,
      parseTokens [.Num a, .Add, .Num b, .Multiply, .Num c, .EOF] =
        .ok (.Add (.Number a) (.Multiply (.Number b) (.Number c)))) ∧
    (∀ a b c : ℚ,
      parseTokens [.Num a, .Substract, .Num b, .Substract, .Num c, .EOF] =
        .ok (.Subtract (.Subtract (.Number a) (.Number b)) (.Number c))) := by
  refine ⟨?_, fun _ _ _ => rfl, fun _ _ _ => rfl⟩
  intro n hn
  obtain ⟨v, ps, qs, hqs, rfl⟩ := isExprB_decomp n hn
  have hfl : flatten (exprFold (termFold (.Number v) ps) qs) ++ [Token.EOF] =
      .Num v :: ((psTokens ps ++ qsTokens qs) ++ [Token.EOF]) := by
    rw [flatten_exprFold, flatten_termFold]
    simp [flatten]
  rw [hfl]
  have hg := gen_expr v ps qs .EOF []
    (2 * ((psTokens ps ++ qsTokens qs) ++ [Token.EOF]).length + 2)
    ⟨.Num v, (psTokens ps ++ qsTokens qs) ++ [Token.EOF]⟩ hqs
    (by simp [List.append_assoc]) rfl
    (by simp; omega)
  show Parser.parse ⟨.Num v, (psTokens ps ++ qsTokens qs) ++ [Token.EOF]⟩ = _
  simp only [Parser.parse]
  rw [hg]

/-- Claim C2, witness: the standard AST of `"2+3*4"` satisfies the grammar
predicate and parses to itself. -/
theorem C2_witness :
    parseTokens [.Num 2, .Add, .Num 3, .Multiply, .Num 4, .EOF] =
      .ok (.Add (.Number 2) (.Multiply (.Number 3) (.Number 4))) :=
  C2_standard_precedence.1
    (.Add (.Number 2) (.Multiply (.Number 3) (.Number 4))) rfl

/-- Claim C1: the claim states that `^` right-associates, so that `"2^3^2"`
parses as `Caret(Number 2, Caret(Number 3, Number 2))` and evaluates to 512.
The code does the opposite: the `while oper_prec < current.get_oper_prec()`
guard of `generate_ast` is strict, so after the right operand of a `Caret` is
parsed at level `Power`, a following `Caret` (also level `Power`) does not bind
into the right operand but is consumed by the outer loop instead.  `"2^3^2"`
therefore parses to the left-nested `Caret(Caret(Number 2, Number 3), Number 2)`,
which evaluates to `(2^3)^2 = 64`, while the right-nested tree the claim and
spec require evaluates to 512.  This theorem evaluates the code at the failing
input. -/
theorem C1_caret_left_associates :
    parseTokens [.Num 2, .Caret, .Num 3, .Caret, .Num 2, .EOF] =
      .ok (.Caret (.Caret (.Number 2) (.Number 3)) (.Number 2)) ∧
    evalNode (.Caret (.Caret (.Number 2) (.Number 3)) (.Number 2)) = some 64 ∧
    evalNode (.Caret (.Number 2) (.Caret (.Number 3) (.Number 2))) = some 512 := by
  refine ⟨rfl, ?_, ?_⟩ <;> (simp [evalNode]; norm_num)

/-- Claim C3: unary minus binds tighter than every binary operator — every
token's precedence is strictly below `Negative`, the level at which
`parse_number` parses the operand of a `Subtract` prefix — and consequently
`"-a^b"` parses as `Caret(Negative(Number a), Number b)`: the negation applies
to `a` alone. -/
theorem C3_unary_minus_binds_tightest :
    (∀ t : Token, t.get_oper_prec < OperPrec.Negative) ∧
    (∀ a b : ℚ, parseTokens [.Substract, .Num a, .Caret, .Num b, .EOF] =
      .ok (.Caret (.Negative (.Number a)) (.Number b))) :=
  ⟨fun t => by cases t <;> simp only [Token.get_oper_prec] <;> decide,
    fun _ _ => rfl⟩

/-- Claim C4: two adjacent parenthesized groups are parsed as implicit
multiplication: `"(a)(b)"` parses as `Multiply(Number a, Number b)` and
`"(a+b)(c+d)"` as `Multiply(Add(a,b), Add(c,d))`; at the claim's concrete
inputs the products evaluate to 6 and 8. -/
theorem C4_implicit_multiplication :
    (∀ a b : ℚ,
      parseTokens [.LeftParen, .Num a, .RightParen,
          .LeftParen, .Num b, .RightParen, .EOF] =
        .ok (.Multiply (.Number a) (.Number b))) ∧
    (∀ a b c d : ℚ,
      parseTokens [.LeftParen, .Num a, .Add, .Num b, .RightParen,
          .LeftParen, .Num c, .Add, .Num d, .RightParen, .EOF] =
        .ok (.Multiply (.Add (.Number a) (.Number b))
          (.Add (.Number c) (.Number d)))) ∧
    evalNode (.Multiply (.Number 2) (.Number 3)) = some 6 ∧
    evalNode (.Multiply (.Add (.Number 1) (.Number 1))
      (.Add (.Number 2) (.Number 2))) = some 8 := by
  refine ⟨fun _ _ => rfl, fun _ _ _ _ => rfl, ?_, ?_⟩ <;> norm_num [evalNode]

/-- Claim C5, counterexample: the claim states that an input tokenizing to a
complete expression followed by a trailing token makes `parse` return an error.
It does not: for the stream of `"2+3)"` the parse succeeds — `parse` runs
`generate_ast(DefaultZero)` and returns its node without ever checking that the
final `current_token` is `EOF`, so the trailing `RightParen` is silently
ignored. -/
theorem C5_trailing_counterexample :
    parseTokens [.Num 2, .Add, .Num 3, .RightParen, .EOF] =
      .ok (.Add (.Number 2) (.Number 3)) := rfl

/-- Claim C5, amended: for an input that tokenizes to a complete expression
followed by trailing tokens, `parse` silently returns the AST of the leading
complete expression and ignores the trailing tokens (here: `"a+b)"` followed by
anything parses to `Add(Number a, Number b)`), because `parse` performs no
end-of-input check after the top-level `generate_ast` returns. -/
theorem C5_trailing_tokens_silently_ignored :
    ∀ (a b : ℚ) (tl : List Token),
      parseTokens (.Num a :: .Add :: .Num b :: .RightParen :: tl) =
        .ok (.Add (.Number a) (.Number b)) :=
  fun _ _ _ => rfl

/-- Claim C6: for the empty string and for every input consisting only of
unrecognizable characters, the tokenizer yields zero tokens, and `Parser::new`
then fails with `InvalidOperator "Invalid character"` — the failure happens at
construction (the embedding is a total function: no panic, and no parser — let
alone a zero result — is produced).  The tokenizer is modelled from the spec
(`tokenizer.rs` is not under `src/`). -/
theorem C6_zero_tokens_fail_construction :
    ∀ s : String, (∀ c ∈ s.data, recognizedChar c = false) →
      Parser.new (tokenizeChars s.data) =
        .error (.InvalidOperator "Invalid character") := by
  intro s h
  cases hd : s.data with
  | nil => simp [tokenizeChars, Parser.new]
  | cons c cs =>
    have hc := h c (by rw [hd]; exact List.mem_cons_self c cs)
    simp only [recognizedChar, Bool.or_eq_false_iff,
      decide_eq_false_iff_not] at hc
    obtain ⟨⟨⟨⟨⟨⟨⟨h1, h2⟩, h3⟩, h4⟩, h5⟩, h6⟩, h7⟩, h8⟩ := hc
    simp [tokenizeChars, h1, h2, h3, h4, h5, h6, h7, h8, Parser.new]

/-- Claim C6, witness: the input `"@"` consists only of unrecognizable
characters, and construction fails with `InvalidOperator`. -/
theorem C6_witness :
    Parser.new (tokenizeChars "@".data) =
      .error (.InvalidOperator "Invalid character") :=
  C6_zero_tokens_fail_construction "@" (by decide)

/-- Claim C7: `check_paren expected` advances past the current token exactly
when it equals `expected`, and otherwise fails with an `InvalidOperator` error
naming the expected and actual tokens; consequently an input with an unclosed
parenthesis such as `"(2+3"` makes `parse` return that `InvalidOperator` error
and no AST. -/
theorem C7_check_paren_mismatch :
    (∀ (st : PState) (expected : Token),
      (expected = st.current_token →
        check_paren st expected = get_next_token st) ∧
      (expected ≠ st.current_token →
        check_paren st expected = .error (.InvalidOperator
          ("Expected " ++ expected.fmtDebug ++ ", got " ++
            st.current_token.fmtDebug)))) ∧
    parseTokens [.LeftParen, .Num 2, .Add, .Num 3, .EOF] =
      .error (.InvalidOperator "Expected RightParen, got EOF") := by
  refine ⟨fun st expected => ⟨fun h => ?_, fun h => ?_⟩, rfl⟩
  · simp [check_paren, if_pos h]
  · simp [check_paren, if_neg h]

/-- Claim C7, witness: at a state whose current token is `EOF`, checking for
`RightParen` fails with the error naming both tokens. -/
theorem C7_witness :
    check_paren ⟨.EOF, []⟩ .RightParen =
      .error (.InvalidOperator "Expected RightParen, got EOF") :=
  (C7_check_paren_mismatch.1 ⟨.EOF, []⟩ .RightParen).2 (by decide)

/-- Claim C8: parsing is deterministic — the parser holds no state beyond the
tokenizer position and current token, both freshly created per parse, so the
whole pipeline is a pure function of the token stream: two successful parses of
the same stream yield structurally identical ASTs. -/
theorem C8_parse_deterministic :
    ∀ (toks : List Token) (n₁ n₂ : Node),
      parseTokens toks = .ok n₁ → parseTokens toks = .ok n₂ → n₁ = n₂ := by
  intro toks n₁ n₂ h1 h2
  have h := h1.symm.trans h2
  exact Except.ok.inj h

/-- Claim C8, witness: two parses of the stream of `"2"` agree. -/
theorem C8_witness : Node.Number 2 = Node.Number 2 :=
  C8_parse_deterministic [.Num 2, .EOF] (.Number 2) (.Number 2) rfl rfl

/-- Claim C9: the loop body of `generate_ast` runs only when
`oper_prec < current.get_oper_prec()`, and the only tokens whose precedence
exceeds `DefaultZero` are the five binary operator tokens; hence whenever the
body runs the current token is one of `Add`, `Substract`, `Multiply`, `Divide`,
`Caret` — in particular it is not `EOF` (the `break` inside the loop is dead
code) and it matches a named arm of `convert_token_to_node` (the
`InvalidOperator` fallback arm is unreachable from the loop). -/
theorem C9_loop_sees_operator :
    ∀ (p : OperPrec) (t : Token), p < t.get_oper_prec →
      (t = .Add ∨ t = .Substract ∨ t = .Multiply ∨ t = .Divide ∨ t = .Caret) ∧
        t ≠ .EOF ∧ OperPrec.DefaultZero < t.get_oper_prec := by
  intro p t h
  cases t with
  | Add => exact ⟨Or.inl rfl, by decide, by decide⟩
  | Substract => exact ⟨Or.inr (Or.inl rfl), by decide, by decide⟩
  | Multiply => exact ⟨Or.inr (Or.inr (Or.inl rfl)), by decide, by decide⟩
  | Divide => exact ⟨Or.inr (Or.inr (Or.inr (Or.inl rfl))), by decide, by decide⟩
  | Caret => exact ⟨Or.inr (Or.inr (Or.inr (Or.inr rfl))), by decide, by decide⟩
  | Num v => exact absurd h (by simp only [Token.get_oper_prec]; cases p <;> decide)
  | LeftParen => exact absurd h (by simp only [Token.get_oper_prec]; cases p <;> decide)
  | RightParen => exact absurd h (by simp only [Token.get_oper_prec]; cases p <;> decide)
  | EOF => exact absurd h (by simp only [Token.get_oper_prec]; cases p <;> decide)

/-- Claim C9, witness: at minimum precedence `DefaultZero` and current token
`Add` the loop guard holds and the conclusion is concrete. -/
theorem C9_witness :
    (Token.Add = .Add ∨ Token.Add = .Substract ∨ Token.Add = .Multiply ∨
        Token.Add = .Divide ∨ Token.Add = .Caret) ∧
      Token.Add ≠ .EOF ∧ OperPrec.DefaultZero < Token.Add.get_oper_prec :=
  C9_loop_sees_operator .DefaultZero .Add (by decide)

/-- Claim C10: from every parser state whose current token is `EOF`, `parse`
returns the `UnableToParse "Unable to parse"` error — the operand-expected
fallback of `parse_number` — and not an `InvalidOperator` error. -/
theorem C10_eof_unable_to_parse :
    ∀ rest : List Token,
      Parser.parse ⟨.EOF, rest⟩ = .error (.UnableToParse "Unable to parse") := by
  intro rest
  have h : ∀ f : Nat, generate_ast (f + 2) .DefaultZero ⟨.EOF, rest⟩ =
      .error (.UnableToParse "Unable to parse") := by
    intro f
    simp [generate_ast, parse_number]
  have h2 := h (2 * rest.length)
  simp only [Parser.parse]
  rw [h2]

end Rcalc
